import Mathlib

/-!
Verification of the project code backup tool (项目代码保存备份工具.py).

The development shallowly embeds the script's core functions over an explicit
filesystem model:

* a directory tree is an `FSEntry` (files carry a `FileState` oracle giving the
  outcome of each of the at most two reads the script performs on them);
* `os.walk`, `os.listdir` ordering, `os.path.join`/`relpath`/`basename`/
  `splitext` are modelled over component lists and character lists;
* Python text-mode reads are modelled as byte-list decoding (strict UTF-8,
  latin-1) followed by universal-newline translation, exactly as
  `open(..., 'r', encoding=...)` behaves (newline=None);
* the concurrent per-file writers are modelled by an arbitrary `schedule`
  (the completion order), a permutation of the collected file list; every
  append is serialised by the write lock, so a run is the fixed synchronous
  writes followed by the scheduled per-file sections.

Definitions keep the source's names (`build_tree`, `get_code_files`,
`process_file`, `compress_backup`, ...).  Python's `sorted(key=str.lower)` is
modelled by a stable insertion sort with the same comparison key; `str.lower`
is modelled per character (ASCII case mapping).
-/

namespace BackupTool

/-! ### Character-list lexicographic order (Python string comparison) -/

/-- Lexicographic comparison of character lists by code point, Python's
string `<=`. -/
def lexLe : List Char → List Char → Bool
  | [], _ => true
  | _ :: _, [] => false
  | a :: as, b :: bs =>
      if a.toNat < b.toNat then true
      else if b.toNat < a.toNat then false
      else lexLe as bs

theorem lexLe_total : ∀ as bs : List Char, lexLe as bs = true ∨ lexLe bs as = true := by
  intro as
  induction as with
  | nil => intro bs; left; rfl
  | cons a as ih =>
    intro bs
    cases bs with
    | nil => right; rfl
    | cons b bs =>
      simp only [lexLe]
      rcases Nat.lt_trichotomy a.toNat b.toNat with h | h | h
      · left; simp [h]
      · rcases ih bs with h2 | h2 <;> simp [h, h2]
      · right; simp [h, Nat.lt_irrefl, Nat.lt_asymm h]

theorem lexLe_trans : ∀ as bs cs : List Char,
    lexLe as bs = true → lexLe bs cs = true → lexLe as cs = true := by
  intro as
  induction as with
  | nil => intro bs cs _ _; rfl
  | cons a as ih =>
    intro bs cs h1 h2
    cases bs with
    | nil => simp [lexLe] at h1
    | cons b bs =>
      cases cs with
      | nil => simp [lexLe] at h2
      | cons c cs =>
        simp only [lexLe] at h1 h2 ⊢
        rcases Nat.lt_trichotomy a.toNat b.toNat with hab | hab | hab
        · rcases Nat.lt_trichotomy b.toNat c.toNat with hbc | hbc | hbc
          · simp [show a.toNat < c.toNat by omega]
          · simp [show a.toNat < c.toNat by omega]
          · simp [show ¬ b.toNat < c.toNat by omega, hbc] at h2
        · rcases Nat.lt_trichotomy b.toNat c.toNat with hbc | hbc | hbc
          · simp [show a.toNat < c.toNat by omega]
          · simp only [show ¬ a.toNat < b.toNat by omega, if_false,
              show ¬ b.toNat < a.toNat by omega] at h1
            simp only [show ¬ b.toNat < c.toNat by omega, if_false,
              show ¬ c.toNat < b.toNat by omega] at h2
            simp only [show ¬ a.toNat < c.toNat by omega, if_false,
              show ¬ c.toNat < a.toNat by omega]
            exact ih bs cs h1 h2
          · simp [show ¬ b.toNat < c.toNat by omega, hbc] at h2
        · simp [show ¬ a.toNat < b.toNat by omega, hab] at h1

/-! ### Text model: lowercasing, universal newlines, encodings -/

/-- Model of Python `str.lower` (per-character ASCII case mapping). -/
def lowerData (s : String) : List Char := s.data.map Char.toLower

/-- Universal-newline translation performed by Python text-mode reads with
`newline=None`: each `\r\n` pair and each lone `\r` becomes `\n`. -/
def uNewlines : List Char → List Char
  | [] => []
  | c :: rest =>
    if c = '\r' then
      match rest with
      | '\n' :: rest2 => '\n' :: uNewlines rest2
      | other => '\n' :: uNewlines other
    else c :: uNewlines rest

/-- Strict UTF-8 decoding of a byte list (rejecting overlong forms,
surrogates and out-of-range scalars), as Python's `utf-8` codec does. -/
def utf8DecodeChars : List Nat → Option (List Char)
  | [] => some []
  | b :: rest =>
    if b ≤ 0x7F then
      (utf8DecodeChars rest).map (fun cs => Char.ofNat b :: cs)
    else if 0xC2 ≤ b ∧ b ≤ 0xDF then
      match rest with
      | b2 :: rest2 =>
        if 0x80 ≤ b2 ∧ b2 ≤ 0xBF then
          (utf8DecodeChars rest2).map
            (fun cs => Char.ofNat ((b - 0xC0) * 0x40 + (b2 - 0x80)) :: cs)
        else none
      | [] => none
    else if 0xE0 ≤ b ∧ b ≤ 0xEF then
      match rest with
      | b2 :: b3 :: rest3 =>
        if (if b = 0xE0 then 0xA0 ≤ b2 ∧ b2 ≤ 0xBF
            else if b = 0xED then 0x80 ≤ b2 ∧ b2 ≤ 0x9F
            else 0x80 ≤ b2 ∧ b2 ≤ 0xBF) ∧ (0x80 ≤ b3 ∧ b3 ≤ 0xBF) then
          (utf8DecodeChars rest3).map
            (fun cs =>
              Char.ofNat ((b - 0xE0) * 0x1000 + (b2 - 0x80) * 0x40 + (b3 - 0x80)) :: cs)
        else none
      | _ => none
    else if 0xF0 ≤ b ∧ b ≤ 0xF4 then
      match rest with
      | b2 :: b3 :: b4 :: rest4 =>
        if (if b = 0xF0 then 0x90 ≤ b2 ∧ b2 ≤ 0xBF
            else if b = 0xF4 then 0x80 ≤ b2 ∧ b2 ≤ 0x8F
            else 0x80 ≤ b2 ∧ b2 ≤ 0xBF) ∧ (0x80 ≤ b3 ∧ b3 ≤ 0xBF)
            ∧ (0x80 ≤ b4 ∧ b4 ≤ 0xBF) then
          (utf8DecodeChars rest4).map
            (fun cs =>
              Char.ofNat ((b - 0xF0) * 0x40000 + (b2 - 0x80) * 0x1000
                + (b3 - 0x80) * 0x40 + (b4 - 0x80)) :: cs)
        else none
      | _ => none
    else none

/-- Characters of the latin-1 decoding: byte `b` becomes code point `b`. -/
def latin1Chars (bs : List Nat) : List Char := bs.map Char.ofNat

/-- Result of `open(path, 'r', encoding='utf-8').read()` on a file whose raw
bytes are `bs`: strict UTF-8 decoding (None on `UnicodeDecodeError`) followed
by universal-newline translation. -/
def utf8Read (bs : List Nat) : Option String :=
  (utf8DecodeChars bs).map (fun cs => ⟨uNewlines cs⟩)

/-- Result of `open(path, 'r', encoding='latin-1').read()`: total decoding of
every byte, followed by universal-newline translation. -/
def latin1Read (bs : List Nat) : String := ⟨uNewlines (latin1Chars bs)⟩

/-- The raw latin-1 text of a byte list, before any newline translation:
the string that represents the byte sequence in full. -/
def latin1RawStr (bs : List Nat) : String := ⟨latin1Chars bs⟩

/-! ### Filesystem model -/

/-- Outcome of one attempt to open and fully read a file. -/
inductive ReadOutcome where
  | ok (bytes : List Nat)
  | ioError (msg : String)

/-- Read oracle for one file: `read1` is the outcome of the first
(UTF-8) open/read, `read2` the outcome of a second (latin-1) open/read,
should one happen. -/
structure FileState where
  read1 : ReadOutcome
  read2 : ReadOutcome

/-- A directory tree: files carry their read oracle; directories carry a
`readable` flag (false models a `PermissionError` from `os.listdir`) and
their children in on-disk listing order. -/
inductive FSEntry where
  | file (name : String) (st : FileState)
  | dir (name : String) (readable : Bool) (children : List FSEntry)

def FSEntry.name : FSEntry → String
  | .file n _ => n
  | .dir n _ _ => n

def FSEntry.isDir : FSEntry → Bool
  | .file _ _ => false
  | .dir _ _ _ => true

/-! ### Paths (os.path over component lists, '/' separator) -/

/-- Model of `os.path.join` over path components. -/
def pathStr : List String → String
  | [] => ""
  | [p] => p
  | p :: rest => p ++ "/" ++ pathStr rest

/-- Model of `os.path.relpath(fp, base)` for `fp` lying below `base`. -/
def relpathStr (base fp : List String) : String := pathStr (fp.drop base.length)

/-- Model of `os.path.basename`: the part after the last '/'. -/
def basenameStr (s : String) : String :=
  ⟨(s.data.reverse.takeWhile (fun c => c != '/')).reverse⟩

/-- Model of `os.path.basename(os.path.abspath(directory))`: the last
component of the project directory path. -/
def project_name_of (directory : List String) : String := directory.getLastD ""

/-! ### Case-insensitive sorting of directory listings -/

/-- The comparison used by `sorted(contents, key=lambda s: s.lower())`:
lexicographic order on the lowercased names. -/
def ciLe (a b : FSEntry) : Bool := lexLe (lowerData a.name) (lowerData b.name)

instance : IsTotal FSEntry (fun a b => ciLe a b = true) :=
  ⟨fun a b => lexLe_total (lowerData a.name) (lowerData b.name)⟩

instance : IsTrans FSEntry (fun a b => ciLe a b = true) :=
  ⟨fun a b c => lexLe_trans (lowerData a.name) (lowerData b.name) (lowerData c.name)⟩

/-- Model of `sorted(contents, key=lambda s: s.lower())`: a stable sort by
the case-insensitive key (insertion sort is stable, like Python's sort). -/
def sortCI (l : List FSEntry) : List FSEntry :=
  List.insertionSort (fun a b => ciLe a b = true) l

theorem sortCI_perm (l : List FSEntry) : (sortCI l).Perm l :=
  List.perm_insertionSort _ l

theorem perm_sizeOf_eq {α : Type} [SizeOf α] {l1 l2 : List α} (h : l1.Perm l2) :
    sizeOf l1 = sizeOf l2 := by
  induction h with
  | nil => rfl
  | cons a _ ih => simp [ih]
  | swap a b l => simp; omega
  | trans _ _ ih1 ih2 => omega

theorem sizeOf_sortCI (l : List FSEntry) : sizeOf (sortCI l) = sizeOf l :=
  perm_sizeOf_eq (sortCI_perm l)

/-! ### Tree Renderer (`build_tree`, `get_directory_tree`) -/

mutual

/-- Model of `build_tree(directory, prefix)`.  `path` is the directory's
path, `e` the on-disk state rooted there.  Returns the rendered tree string
together with the ordered list of warnings logged (`logging.warning`).  A
directory whose listing raises `PermissionError` contributes no children and
one warning; the source never calls `build_tree` on a file (guarded by
`os.path.isdir`), so the file arm is inert. -/
def build_tree (path : List String) (e : FSEntry) (pfx : String) :
    String × List String :=
  match e with
  | .file _ _ => ("", [])
  | .dir _ false _ => ("", ["无权限访问目录：" ++ pathStr path])
  | .dir _ true children => renderEntries path (sortCI children) pfx
  termination_by sizeOf e
  decreasing_by simp only [sizeOf_sortCI, FSEntry.dir.sizeOf_spec]; omega

/-- The `for pointer, item in zip(pointers, contents)` loop of `build_tree`:
`pointers = ['├── '] * (len(contents) - 1) + ['└── ']`, so an entry gets the
corner pointer exactly when it is the last of the listing. -/
def renderEntries (path : List String) (l : List FSEntry) (pfx : String) :
    String × List String :=
  match l with
  | [] => ("", [])
  | c :: rest =>
    let pointer := if rest.isEmpty then "└── " else "├── "
    let chunk :=
      if c.isDir then
        let ext := if pointer = "├── " then "│   " else "    "
        let sub := build_tree (path ++ [c.name]) c (pfx ++ ext)
        (pfx ++ pointer ++ c.name ++ "/\n" ++ sub.fst, sub.snd)
      else
        (pfx ++ pointer ++ c.name ++ "\n", ([] : List String))
    let tail := renderEntries path rest pfx
    (chunk.fst ++ tail.fst, chunk.snd ++ tail.snd)
  termination_by sizeOf l
  decreasing_by
    all_goals simp only [List.cons.sizeOf_spec]
    · omega
    · omega

end

/-- Model of `get_directory_tree(directory)` (rendered string only). -/
def get_directory_tree (directory : List String) (root : FSEntry) : String :=
  "```\n" ++ (project_name_of directory ++ "/\n" ++ (build_tree directory root "").fst) ++ "```\n"

/-! ### Spec-side view of one rendered level (for the refinement claims) -/

/-- Tags each list element with whether it is the last one. -/
def tagLast {α : Type} : List α → List (α × Bool)
  | [] => []
  | [c] => [(c, true)]
  | c :: c2 :: rest => (c, false) :: tagLast (c2 :: rest)

/-- Plain string concatenation. -/
def strJoin : List String → String
  | [] => ""
  | s :: rest => s ++ strJoin rest

/-- Spec-side description of the chunk one child contributes to its level:
branch connector '├── ' for a non-last entry, corner connector '└── ' for the
last; a directory recurses with the prefix extended by '│   ' under a
non-last entry and by four spaces under the last. -/
def specChunk (path : List String) (pfx : String) (cb : FSEntry × Bool) : String :=
  pfx ++ (if cb.snd then "└── " else "├── ") ++ cb.fst.name ++
    (if cb.fst.isDir then
      "/\n" ++ (build_tree (path ++ [cb.fst.name]) cb.fst
        (pfx ++ (if cb.snd then "    " else "│   "))).fst
    else "\n")

/-- Spec-side description of the warnings one child contributes. -/
def specWarn (path : List String) (pfx : String) (cb : FSEntry × Bool) : List String :=
  if cb.fst.isDir then
    (build_tree (path ++ [cb.fst.name]) cb.fst
      (pfx ++ (if cb.snd then "    " else "│   "))).snd
  else []

/-! ### File Collector (`os.walk`, `get_code_files`) -/

/-- The `dirnames` component of an `os.walk` triple: names of directory
children, in listing order. -/
def dirNames (l : List FSEntry) : List String :=
  (l.filter (fun c => c.isDir)).map (fun c => c.name)

/-- The `filenames` component of an `os.walk` triple, with each file's read
oracle attached (the oracle stands for the on-disk content the later `open`
calls will see). -/
def filesOf : List FSEntry → List (String × FileState)
  | [] => []
  | .file n st :: rest => (n, st) :: filesOf rest
  | .dir _ _ _ :: rest => filesOf rest

mutual

/-- Model of `os.walk(path)` (top-down, default `onerror=None`): a readable
directory yields its triple and then the walks of its subdirectories in
listing order; an unreadable directory (scandir raises) yields nothing. -/
def walk (path : List String) (e : FSEntry) :
    List (List String × List String × List (String × FileState)) :=
  match e with
  | .file _ _ => []
  | .dir _ false _ => []
  | .dir _ true children =>
      (path, dirNames children, filesOf children) :: walkInto path children

def walkInto (path : List String) (l : List FSEntry) :
    List (List String × List String × List (String × FileState)) :=
  match l with
  | [] => []
  | c :: rest =>
      (if c.isDir then walk (path ++ [c.name]) c else []) ++ walkInto path rest

end

/-- Model of Python `file.endswith(extensions)` for a tuple of extensions:
a case-sensitive suffix test against the whole file name. -/
def endswithAny (file : String) (extensions : List String) : Bool :=
  extensions.any (fun ext => ext.data.isSuffixOf file.data)

/-- Model of `get_code_files(directory, extensions)`: the nested `for` loops
over `os.walk`, appending `os.path.join(root, file)` for each file whose
name ends with one of the extensions.  Each collected path keeps its read
oracle attached; the source's list of path strings is the `Prod.fst`
projection. -/
def get_code_files (directory : List String) (root : FSEntry)
    (extensions : List String) : List (List String × FileState) :=
  (walk directory root).foldl
    (fun code_files t =>
      t.2.2.foldl
        (fun acc f =>
          if endswithAny f.1 extensions then acc ++ [(t.1 ++ [f.1], f.2)] else acc)
        code_files)
    []

/-- Spec-side view: every file of the subtree, in the order of the
underlying walk, before any extension filtering. -/
def walkFilesAll (directory : List String) (root : FSEntry) : List (List String) :=
  (walk directory root).flatMap (fun t => t.2.2.map (fun f => t.1 ++ [f.1]))

/-! ### Language resolution (`get_language_from_extension`) -/

/-- The fixed extension-to-language-tag mapping of the source. -/
def language_map : List (String × String) :=
  [(".py", "python"), (".java", "java"), (".cpp", "cpp"), (".c", "c"),
   (".h", "cpp"), (".cs", "csharp"), (".js", "javascript"),
   (".ts", "typescript"), (".jsx", "javascriptreact"),
   (".tsx", "typescriptreact"), (".rb", "ruby"), (".go", "go"),
   (".php", "php"), (".swift", "swift"), (".kt", "kotlin"),
   (".m", "objective-c"), (".mm", "objective-c"), (".txt", ""),
   (".md", "markdown"), (".ini", ""), (".cfg", ""), (".json", "json"),
   (".xml", "xml"), (".yaml", "yaml"), (".yml", "yaml")]

/-- Index of the last occurrence of `c` in `l` (Python `str.rfind`). -/
def lastIndexOf (c : Char) (l : List Char) : Option Nat :=
  ((l.enum.filter (fun p => p.2 == c)).map (fun p => p.1)).getLast?

/-- Model of `os.path.splitext(p)[1]` (posixpath): the extension starts at
the last '.' after the last '/', provided some earlier character of the
basename is not a '.' (so dotfiles like `.py` have no extension). -/
def splitext_ext (p : String) : String :=
  let cs := p.data
  match lastIndexOf '.' cs with
  | none => ""
  | some d =>
    let fi : Nat :=
      match lastIndexOf '/' cs with
      | none => 0
      | some s => s + 1
    if fi ≤ d ∧ ((cs.drop fi).take (d - fi)).any (fun ch => ch != '.') then
      ⟨cs.drop d⟩
    else ""

/-- Model of `get_language_from_extension(file_path)`:
`language_map.get(os.path.splitext(file_path)[1].lower(), '')`. -/
def get_language_from_extension (file_path : String) : String :=
  let extension : String := ⟨(splitext_ext file_path).data.map Char.toLower⟩
  (language_map.lookup extension).getD ""

/-! ### Content Writer (`process_file`, `write_code_and_structure`) -/

/-- The text placed between the opening and closing fence of a section, per
read outcome: the UTF-8 text when the first read decodes, the latin-1 text
when the first read raises `UnicodeDecodeError` and the retry succeeds, and
the logged error placeholder when the retry or the first read raises
anything else. -/
def bodyMid (relative_path : String) (st : FileState) : String :=
  match st.read1 with
  | .ok bs =>
    match utf8Read bs with
    | some text => text
    | none =>
      match st.read2 with
      | .ok bs2 => latin1Read bs2
      | .ioError e => "无法读取文件 " ++ relative_path ++ "，错误信息：" ++ e
  | .ioError e => "处理文件 " ++ relative_path ++ " 时发生错误：" ++ e

/-- Model of the `process_file(file_path)` closure: the section text one
worker computes and appends (under the write lock) for one collected file.
The accumulation mirrors the source: heading, opening fence with language
tag, then per-branch content plus closing fence. -/
def process_file (directory file_path : List String) (st : FileState) : String :=
  let relative_path := relpathStr directory file_path
  let header := "### 文件：" ++ relative_path ++ "\n\n"
  let fenceOpen := "```" ++ get_language_from_extension (pathStr file_path) ++ "\n"
  let body :=
    match st.read1 with
    | .ok bs =>
      match utf8Read bs with
      | some text => text ++ "\n```\n\n"
      | none =>
        match st.read2 with
        | .ok bs2 => latin1Read bs2 ++ "\n```\n\n"
        | .ioError e =>
            "无法读取文件 " ++ relative_path ++ "，错误信息：" ++ e ++ "\n```\n\n"
    | .ioError e =>
        "处理文件 " ++ relative_path ++ " 时发生错误：" ++ e ++ "\n```\n\n"
  header ++ fenceOpen ++ body

/-- The fixed document parts written synchronously (inside the
`with open(output_file, 'w')` block) before any worker is started. -/
def fixedChunks (directory : List String) (root : FSEntry) : List String :=
  ["# 项目名称：" ++ project_name_of directory ++ "\n\n",
   "## 项目目录结构：\n\n",
   get_directory_tree directory root,
   "\n",
   "## 所有源代码文件的内容：\n\n"]

/-- Model of `write_code_and_structure`: the sequence of writes applied to
the output file.  The fixed parts are written synchronously in source order;
afterwards each worker appends its finished section under the write lock, in
completion order — `schedule` is that (nondeterministic) order over the
collected files. -/
def write_code_and_structure (directory : List String) (root : FSEntry)
    (schedule : List (List String × FileState)) : List String :=
  let out0 : List String := []
  let out1 := out0 ++ ["# 项目名称：" ++ project_name_of directory ++ "\n\n"]
  let out2 := out1 ++ ["## 项目目录结构：\n\n"]
  let out3 := out2 ++ [get_directory_tree directory root]
  let out4 := out3 ++ ["\n"]
  let out5 := out4 ++ ["## 所有源代码文件的内容：\n\n"]
  schedule.foldl (fun out e => out ++ [process_file directory e.1 e.2]) out5

/-- The (relative-path, content, language-tag) triple of one section. -/
def sectionTriple (directory : List String) (e : List String × FileState) :
    String × String × String :=
  (relpathStr directory e.1,
   bodyMid (relpathStr directory e.1) e.2,
   get_language_from_extension (pathStr e.1))

/-- Renders a (relative-path, content, language-tag) triple as its section
text: the triple determines the section completely. -/
def renderTriple (tr : String × String × String) : String :=
  "### 文件：" ++ tr.1 ++ "\n\n" ++ ("```" ++ tr.2.2 ++ "\n") ++ (tr.2.1 ++ "\n```\n\n")

/-! ### Extension management (`manage_extensions`) -/

/-- The fixed catalog of allowed extensions (`available_extensions`). -/
def available_extensions : List String :=
  [".py", ".java", ".cpp", ".c", ".h", ".cs", ".js", ".ts",
   ".jsx", ".tsx", ".rb", ".go", ".php", ".swift", ".kt",
   ".m", ".mm", ".txt", ".md", ".ini", ".cfg", ".json", ".xml",
   ".yaml", ".yml"]

/-- The default selected extensions (`source_extensions`). -/
def source_extensions : List String :=
  [".py", ".java", ".cpp", ".c", ".h", ".cs", ".js", ".ts",
   ".jsx", ".tsx", ".rb", ".go", ".php", ".swift", ".kt",
   ".m", ".mm"]

/-- ASCII whitespace test for the `str.strip()` model. -/
def isSpaceChar (c : Char) : Bool :=
  c == ' ' || c == '\t' || c == '\n' || c == '\r' || c == '\x0b' || c == '\x0c'

/-- Model of `str.strip()` (ASCII whitespace). -/
def pyStrip (s : String) : String :=
  ⟨((s.data.dropWhile isSpaceChar).reverse.dropWhile isSpaceChar).reverse⟩

/-- Whether the stripped input starts with '.'. -/
def startsDot (s : String) : Bool :=
  match s.data with
  | '.' :: _ => true
  | _ => false

/-- Model of the per-item normalisation of `manage_extensions`:
`ext.strip() if ext.strip().startswith('.') else '.' + ext.strip()`. -/
def normalize_ext (raw : String) : String :=
  let t := pyStrip raw
  if startsDot t then t else "." ++ t

/-- Model of the `add` branch of `manage_extensions`: each normalised input
is appended only if it is in the catalog and not already selected. -/
def addExtensions (src avail : List String) (inputs : List String) : List String :=
  inputs.foldl
    (fun src raw =>
      let ext := normalize_ext raw
      if ext ∈ avail ∧ ext ∉ src then src ++ [ext] else src)
    src

/-- Model of the `remove` branch of `manage_extensions`: each normalised
input is removed (first occurrence, `list.remove`) only if present. -/
def removeExtensions (src : List String) (inputs : List String) : List String :=
  inputs.foldl
    (fun src raw =>
      let ext := normalize_ext raw
      if ext ∈ src then src.erase ext else src)
    src

/-! ### Archiver (`compress_backup`) and output naming -/

/-- Model of Python `s.rstrip(chars)`: removes the maximal run of trailing
characters drawn from the character set `chars`. -/
def pyRstrip (s : String) (chars : List Char) : String :=
  ⟨(s.data.reverse.dropWhile (fun c => chars.contains c)).reverse⟩

/-- Model of `compress_backup(output_file)` on a document whose bytes are
`docBytes`: the archive name is `output_file.rstrip('.md') + '.zip'`, and the
archive holds exactly one entry, stored under the document's base name, whose
decompressed content is the document's bytes (the zip container is modelled
as a lossless name-to-content map, the `zipfile` contract). -/
def compress_backup (output_file : String) (docBytes : List Nat) :
    String × List (String × List Nat) :=
  let zip_filename := pyRstrip output_file ['.', 'm', 'd'] ++ ".zip"
  (zip_filename, [(basenameStr output_file, docBytes)])

/-- Model of the output document naming of the main block:
`f'{project_name}_{current_time}.md'` with `current_time` from
`datetime.now().strftime('%Y%m%d_%H%M')`. -/
def output_filename (project_name current_time : String) : String :=
  project_name ++ "_" ++ current_time ++ ".md"

/-! ### Concrete sample trees for the witnesses -/

/-- A project containing a file named exactly `.py` (with one byte 'a'). -/
def dotPyProject : FSEntry :=
  .dir "proj" true [.file ".py" ⟨.ok [97], .ok [97]⟩]

/-- A small project tree used by concrete witnesses: two matching source
files (one nested) and one file whose extension is not selected. -/
def sampleProject : FSEntry :=
  .dir "p" true
    [.file "a.py" ⟨.ok [97], .ok [97]⟩,
     .file "README.md" ⟨.ok [98], .ok [98]⟩,
     .dir "sub" true [.file "b.js" ⟨.ok [99], .ok [99]⟩]]

/-! ### Helper lemmas -/

theorem charOfNat_toNat {b : Nat} (h : b < 55296) : (Char.ofNat b).toNat = b := by
  have hv : b.isValidChar := Or.inl h
  simp only [Char.ofNat, dif_pos hv]
  rfl

theorem charOfNat_ne_cr {b : Nat} (h1 : b < 256) (h2 : b ≠ 13) :
    Char.ofNat b ≠ '\r' := by
  intro he
  have h13 : (Char.ofNat b).toNat = 13 := by rw [he]; rfl
  rw [charOfNat_toNat (by omega)] at h13
  exact h2 h13

theorem uNewlines_eq_of_noCR : ∀ cs : List Char, (∀ c ∈ cs, c ≠ '\r') →
    uNewlines cs = cs := by
  intro cs
  induction cs with
  | nil => intro _; rfl
  | cons c rest ih =>
    intro h
    have hc : ¬ c = '\r' := h c (List.mem_cons_self c rest)
    rw [uNewlines.eq_def]
    simp only [if_neg hc]
    rw [ih (fun x hx => h x (List.mem_cons_of_mem c hx))]

theorem latin1Read_eq_raw {bs : List Nat} (h : ∀ b ∈ bs, b < 256 ∧ b ≠ 13) :
    latin1Read bs = latin1RawStr bs := by
  unfold latin1Read latin1RawStr
  rw [uNewlines_eq_of_noCR]
  intro c hc
  rcases List.mem_map.mp hc with ⟨b, hb, rfl⟩
  exact charOfNat_ne_cr (h b hb).1 (h b hb).2

theorem map_toNat_ofNat : ∀ bs : List Nat, (∀ b ∈ bs, b < 256) →
    (bs.map Char.ofNat).map Char.toNat = bs := by
  intro bs
  induction bs with
  | nil => intro _; rfl
  | cons b rest ih =>
    intro h
    simp only [List.map_cons]
    rw [charOfNat_toNat (by have := h b (List.mem_cons_self b rest); omega),
      ih (fun x hx => h x (List.mem_cons_of_mem b hx))]

theorem latin1RawStr_toNat {bs : List Nat} (h : ∀ b ∈ bs, b < 256) :
    (latin1RawStr bs).data.map Char.toNat = bs :=
  map_toNat_ofNat bs h

theorem process_file_eq (directory file_path : List String) (st : FileState) :
    process_file directory file_path st
      = "### 文件：" ++ relpathStr directory file_path ++ "\n\n"
        ++ ("```" ++ get_language_from_extension (pathStr file_path) ++ "\n")
        ++ (bodyMid (relpathStr directory file_path) st ++ "\n```\n\n") := by
  obtain ⟨r1, r2⟩ := st
  cases r1 with
  | ok bs =>
    cases h : utf8Read bs with
    | some text => simp [process_file, bodyMid, h]
    | none => cases r2 <;> simp [process_file, bodyMid, h, String.append_assoc]
  | ioError e => simp [process_file, bodyMid, String.append_assoc]

theorem process_file_renderTriple (directory file_path : List String) (st : FileState) :
    process_file directory file_path st
      = renderTriple (sectionTriple directory (file_path, st)) := by
  rw [process_file_eq]
  simp [renderTriple, sectionTriple, String.append_assoc]

theorem foldl_snoc_eq_append_map {α β : Type} (f : α → β) :
    ∀ (l : List α) (acc : List β),
      l.foldl (fun out e => out ++ [f e]) acc = acc ++ l.map f := by
  intro l
  induction l with
  | nil => intro acc; simp
  | cons a l ih => intro acc; simp [ih]

theorem build_tree_file (path : List String) (n : String) (st : FileState) (pfx : String) :
    build_tree path (.file n st) pfx = ("", []) := by
  simp [build_tree]

theorem build_tree_unreadable (path : List String) (n : String) (cs : List FSEntry)
    (pfx : String) :
    build_tree path (.dir n false cs) pfx
      = ("", ["无权限访问目录：" ++ pathStr path]) := by
  simp [build_tree]

theorem build_tree_readable (path : List String) (n : String) (cs : List FSEntry)
    (pfx : String) :
    build_tree path (.dir n true cs) pfx = renderEntries path (sortCI cs) pfx := by
  simp [build_tree]

theorem sortCI_sorted (l : List FSEntry) :
    List.Sorted (fun a b => ciLe a b = true) (sortCI l) :=
  List.sorted_insertionSort _ l

theorem tagLast_map_fst {α : Type} : ∀ l : List α, (tagLast l).map Prod.fst = l := by
  intro l
  induction l with
  | nil => rfl
  | cons a rest ih =>
    cases rest with
    | nil => rfl
    | cons b rest2 =>
      simp only [tagLast, List.map_cons] at ih ⊢
      exact congrArg (a :: ·) ih

theorem mem_tagLast {α : Type} {x : α} {l : List α} (hx : x ∈ l) :
    ∃ b, (x, b) ∈ tagLast l := by
  rcases List.mem_map.mp (by rw [tagLast_map_fst]; exact hx :
      x ∈ (tagLast l).map Prod.fst) with ⟨⟨p1, p2⟩, hp, he⟩
  cases he
  exact ⟨p2, hp⟩

theorem renderEntries_nil (path : List String) (pfx : String) :
    renderEntries path [] pfx = ("", []) := by
  simp [renderEntries]

theorem renderEntries_cons (path : List String) (c : FSEntry) (rest : List FSEntry)
    (pfx : String) :
    renderEntries path (c :: rest) pfx =
      ((if c.isDir then
          pfx ++ (if rest.isEmpty then "└── " else "├── ") ++ c.name ++ "/\n"
            ++ (build_tree (path ++ [c.name]) c
                 (pfx ++ (if rest.isEmpty then "    " else "│   "))).fst
        else pfx ++ (if rest.isEmpty then "└── " else "├── ") ++ c.name ++ "\n")
        ++ (renderEntries path rest pfx).fst,
       (if c.isDir then
          (build_tree (path ++ [c.name]) c
            (pfx ++ (if rest.isEmpty then "    " else "│   "))).snd
        else []) ++ (renderEntries path rest pfx).snd) := by
  rw [renderEntries.eq_def]
  cases rest <;> by_cases hd : c.isDir <;>
    simp +decide [hd, String.append_assoc]

theorem renderEntries_fst (path : List String) : ∀ (l : List FSEntry) (pfx : String),
    (renderEntries path l pfx).fst = strJoin ((tagLast l).map (specChunk path pfx)) := by
  intro l
  induction l with
  | nil => intro pfx; simp [renderEntries_nil, tagLast, strJoin]
  | cons c rest ih =>
    intro pfx
    cases rest with
    | nil =>
      rw [renderEntries_cons, renderEntries_nil]
      by_cases hd : c.isDir <;>
        simp [tagLast, strJoin, specChunk, hd, String.append_assoc,
          String.append_empty]
    | cons c2 rest2 =>
      rw [renderEntries_cons]
      by_cases hd : c.isDir <;>
        simp [tagLast, strJoin, specChunk, hd, ih, String.append_assoc]

theorem renderEntries_snd (path : List String) : ∀ (l : List FSEntry) (pfx : String),
    (renderEntries path l pfx).snd = ((tagLast l).map (specWarn path pfx)).flatten := by
  intro l
  induction l with
  | nil => intro pfx; simp [renderEntries_nil, tagLast]
  | cons c rest ih =>
    intro pfx
    cases rest with
    | nil =>
      rw [renderEntries_cons, renderEntries_nil]
      by_cases hd : c.isDir <;>
        simp [tagLast, specWarn, hd]
    | cons c2 rest2 =>
      rw [renderEntries_cons]
      by_cases hd : c.isDir <;>
        simp [tagLast, specWarn, hd, ih]

theorem inner_collect_eq (extensions : List String) (t1 : List String) :
    ∀ (files : List (String × FileState)) (acc : List (List String × FileState)),
      files.foldl
        (fun acc f =>
          if endswithAny f.1 extensions then acc ++ [(t1 ++ [f.1], f.2)] else acc) acc
        = acc ++ (files.filter (fun f => endswithAny f.1 extensions)).map
            (fun f => (t1 ++ [f.1], f.2)) := by
  intro files
  induction files with
  | nil => intro acc; simp
  | cons f fs ih =>
    intro acc
    cases h : endswithAny f.1 extensions <;>
      simp [List.foldl_cons, h, ih, List.filter_cons]

theorem outer_collect_eq (extensions : List String) :
    ∀ (ts : List (List String × List String × List (String × FileState)))
      (acc : List (List String × FileState)),
      ts.foldl
        (fun code_files t =>
          t.2.2.foldl
            (fun acc f =>
              if endswithAny f.1 extensions then acc ++ [(t.1 ++ [f.1], f.2)] else acc)
            code_files) acc
        = acc ++ ts.flatMap
            (fun t => (t.2.2.filter (fun f => endswithAny f.1 extensions)).map
              (fun f => (t.1 ++ [f.1], f.2))) := by
  intro ts
  induction ts with
  | nil => intro acc; simp
  | cons t ts ih =>
    intro acc
    rw [List.foldl_cons, ih]
    rw [inner_collect_eq, List.flatMap_cons, List.append_assoc]

theorem get_code_files_eq (directory : List String) (root : FSEntry)
    (extensions : List String) :
    get_code_files directory root extensions
      = (walk directory root).flatMap
          (fun t => (t.2.2.filter (fun f => endswithAny f.1 extensions)).map
            (fun f => (t.1 ++ [f.1], f.2))) := by
  unfold get_code_files
  rw [outer_collect_eq]
  simp

theorem get_code_files_filter (directory : List String) (root : FSEntry)
    (extensions : List String) :
    (get_code_files directory root extensions).map (fun e => e.1)
      = (walkFilesAll directory root).filter
          (fun fp => endswithAny (fp.getLastD "") extensions) := by
  rw [get_code_files_eq]
  unfold walkFilesAll
  rw [List.map_flatMap, List.filter_flatMap]
  congr 1
  funext t
  rw [List.filter_map, List.map_map]
  simp [Function.comp_def, List.getLastD_concat]

/-! ### Extension-management helper lemmas -/

theorem addExtensions_single (src avail : List String) (raw : String) :
    addExtensions src avail [raw]
      = if normalize_ext raw ∈ avail ∧ normalize_ext raw ∉ src
        then src ++ [normalize_ext raw] else src := by
  simp [addExtensions]

theorem removeExtensions_single (src : List String) (raw : String) :
    removeExtensions src [raw]
      = if normalize_ext raw ∈ src then src.erase (normalize_ext raw) else src := by
  simp [removeExtensions]

theorem addExtensions_cons (src avail : List String) (raw0 : String)
    (rest : List String) :
    addExtensions src avail (raw0 :: rest)
      = addExtensions
          (if normalize_ext raw0 ∈ avail ∧ normalize_ext raw0 ∉ src
           then src ++ [normalize_ext raw0] else src) avail rest := by
  simp [addExtensions, List.foldl_cons]

theorem addExtensions_nodup (avail : List String) :
    ∀ (inputs : List String) (src : List String), src.Nodup →
      (addExtensions src avail inputs).Nodup := by
  intro inputs
  induction inputs with
  | nil => intro src h; exact h
  | cons raw0 rest ih =>
    intro src hnd
    rw [addExtensions_cons]
    by_cases hc : normalize_ext raw0 ∈ avail ∧ normalize_ext raw0 ∉ src
    · rw [if_pos hc]
      exact ih (src ++ [normalize_ext raw0]) (by simp [List.nodup_append, hnd, hc.2])
    · rw [if_neg hc]
      exact ih src hnd

/-! ### Claim theorems -/

/-- C6: in every run, the document header (project name), the fenced tree
block, and the source-content section heading are written to the output file
before any per-file section: for every completion order `schedule` of the
concurrent workers, the write sequence is exactly the five fixed chunks
(header, structure heading, tree block, blank line, content heading), in
source order, followed by the per-file sections. -/
theorem fixed_parts_before_sections (directory : List String) (root : FSEntry)
    (schedule : List (List String × FileState)) :
    write_code_and_structure directory root schedule
      = fixedChunks directory root
        ++ schedule.map (fun e => process_file directory e.1 e.2)
  ∧ fixedChunks directory root
      = ["# 项目名称：" ++ project_name_of directory ++ "\n\n",
         "## 项目目录结构：\n\n",
         get_directory_tree directory root,
         "\n",
         "## 所有源代码文件的内容：\n\n"] := by
  constructor
  · simp only [write_code_and_structure,
      foldl_snoc_eq_append_map
        (fun e : List String × FileState => process_file directory e.1 e.2)]
    simp [fixedChunks]
  · rfl

/-- C8: extension add and remove are idempotent and catalog-restricted:
adding an already-present or out-of-catalog extension leaves the set
unchanged, additions never create duplicates, adding twice equals adding
once, removing an absent extension is a no-op, and removing twice equals
removing once (on a duplicate-free set). -/
theorem extension_add_remove_idempotent (src avail : List String) (raw : String)
    (inputs : List String) :
    (normalize_ext raw ∈ src ∨ normalize_ext raw ∉ avail →
        addExtensions src avail [raw] = src)
  ∧ (src.Nodup → (addExtensions src avail inputs).Nodup)
  ∧ addExtensions (addExtensions src avail [raw]) avail [raw]
      = addExtensions src avail [raw]
  ∧ (normalize_ext raw ∉ src → removeExtensions src [raw] = src)
  ∧ (src.Nodup →
        removeExtensions (removeExtensions src [raw]) [raw]
          = removeExtensions src [raw]) := by
  refine ⟨?_, fun h => addExtensions_nodup avail inputs src h, ?_, ?_, ?_⟩
  · intro h
    rw [addExtensions_single, if_neg]
    rintro ⟨h1, h2⟩
    rcases h with h | h
    · exact h2 h
    · exact h h1
  · by_cases hc : normalize_ext raw ∈ avail ∧ normalize_ext raw ∉ src
    · rw [addExtensions_single src avail raw, if_pos hc,
        addExtensions_single, if_neg]
      rintro ⟨_, h2⟩
      exact h2 (by simp)
    · rw [addExtensions_single src avail raw, if_neg hc,
        addExtensions_single, if_neg hc]
  · intro h
    rw [removeExtensions_single, if_neg h]
  · intro hnd
    by_cases hc : normalize_ext raw ∈ src
    · rw [removeExtensions_single src raw, if_pos hc,
        removeExtensions_single, if_neg]
      intro hmem
      exact ((hnd.mem_erase_iff).mp hmem).1 rfl
    · rw [removeExtensions_single src raw, if_neg hc,
        removeExtensions_single, if_neg hc]

/-- C8 witness: concrete instances discharging each hypothesis: adding the
already-selected '.py' to the default set is a no-op, the default set stays
duplicate-free under additions, and removing the absent '.rs' is a no-op. -/
theorem extension_add_remove_idempotent_witness :
    (normalize_ext ".py" ∈ source_extensions ∨
        normalize_ext ".py" ∉ available_extensions)
  ∧ addExtensions source_extensions available_extensions [".py"] = source_extensions
  ∧ source_extensions.Nodup
  ∧ (addExtensions source_extensions available_extensions [".md"]).Nodup
  ∧ (normalize_ext ".rs" ∉ source_extensions)
  ∧ removeExtensions source_extensions [".rs"] = source_extensions := by
  have h := extension_add_remove_idempotent source_extensions available_extensions
    ".py" [".md"]
  have h2 := extension_add_remove_idempotent source_extensions available_extensions
    ".rs" [".md"]
  exact ⟨Or.inl (by decide), h.1 (Or.inl (by decide)), by decide,
    h.2.1 (by decide), by decide, h2.2.2.2.1 (by decide)⟩

/-- C9: every per-file section is a structurally closed Markdown unit: for
every file path and every read outcome the section text is the heading, the
opening fence carrying the language tag, some middle text, and the
terminating fence — no read failure leaves an unterminated fence. -/
theorem section_fences_closed (directory file_path : List String) (st : FileState) :
    ∃ mid, process_file directory file_path st
      = "### 文件：" ++ relpathStr directory file_path ++ "\n\n"
        ++ "```" ++ get_language_from_extension (pathStr file_path) ++ "\n"
        ++ mid ++ "\n```\n\n" := by
  refine ⟨bodyMid (relpathStr directory file_path) st, ?_⟩
  rw [process_file_eq]
  apply String.ext
  simp [String.data_append, List.append_assoc]

/-- C10: collection matching and language-tag resolution disagree: a file
named exactly `.py` is collected (the case-sensitive `endswith` test matches
the whole name) yet receives the empty language tag, because `splitext`
yields no extension for a dotfile — even though the mapping sends the key
`.py` to `python`; and the suffix test is case-sensitive (`A.PY` is not
collected). -/
theorem collected_but_untagged_dotfile :
    (get_code_files ["proj"] dotPyProject source_extensions).map (fun e => e.1)
      = [["proj", ".py"]]
  ∧ endswithAny ".py" source_extensions = true
  ∧ get_language_from_extension (pathStr ["proj", ".py"]) = ""
  ∧ (language_map.lookup ".py").getD "" = "python"
  ∧ endswithAny "A.PY" source_extensions = false := by
  exact ⟨by decide, by decide, by decide, by decide, by decide⟩

/-- C1 (amended): the Content Writer first attempts the UTF-8 read; on a
decode failure it retries with latin-1, which never fails and decodes every
byte — the output carries the latin-1 text after the universal-newline
translation text mode applies (carriage-return-free byte sequences are
represented verbatim, byte for byte); a placeholder carrying the error
message replaces the content exactly when the fallback read or any other
read raises; and every scheduled file yields a section, so no single file
aborts the run. -/
theorem content_writer_read_policy (directory file_path : List String)
    (st : FileState) :
    (∀ bs text, st.read1 = .ok bs → utf8Read bs = some text →
        process_file directory file_path st
          = "### 文件：" ++ relpathStr directory file_path ++ "\n\n"
            ++ ("```" ++ get_language_from_extension (pathStr file_path) ++ "\n")
            ++ (text ++ "\n```\n\n"))
  ∧ (∀ bs bs2, st.read1 = .ok bs → utf8Read bs = none → st.read2 = .ok bs2 →
        process_file directory file_path st
          = "### 文件：" ++ relpathStr directory file_path ++ "\n\n"
            ++ ("```" ++ get_language_from_extension (pathStr file_path) ++ "\n")
            ++ (latin1Read bs2 ++ "\n```\n\n"))
  ∧ (∀ bs2, (∀ b ∈ bs2, b < 256 ∧ b ≠ 13) →
        latin1Read bs2 = latin1RawStr bs2
        ∧ (latin1RawStr bs2).data.map Char.toNat = bs2)
  ∧ (∀ bs e, st.read1 = .ok bs → utf8Read bs = none → st.read2 = .ioError e →
        process_file directory file_path st
          = "### 文件：" ++ relpathStr directory file_path ++ "\n\n"
            ++ ("```" ++ get_language_from_extension (pathStr file_path) ++ "\n")
            ++ ("无法读取文件 " ++ relpathStr directory file_path ++ "，错误信息："
                ++ e ++ "\n```\n\n"))
  ∧ (∀ e, st.read1 = .ioError e →
        process_file directory file_path st
          = "### 文件：" ++ relpathStr directory file_path ++ "\n\n"
            ++ ("```" ++ get_language_from_extension (pathStr file_path) ++ "\n")
            ++ ("处理文件 " ++ relpathStr directory file_path ++ " 时发生错误："
                ++ e ++ "\n```\n\n"))
  ∧ ∀ schedule : List (List String × FileState),
      (schedule.map (fun en => process_file directory en.1 en.2)).length
        = schedule.length := by
  obtain ⟨r1, r2⟩ := st
  refine ⟨?_, ?_, ?_, ?_, ?_, fun schedule => List.length_map _ _⟩
  · intro bs text h1 h2
    cases h1
    simp only [process_file, h2]
  · intro bs bs2 h1 h2 h3
    cases h1
    cases h3
    simp only [process_file, h2]
  · intro bs2 hb
    exact ⟨latin1Read_eq_raw hb, latin1RawStr_toNat (fun b h => (hb b h).1)⟩
  · intro bs e h1 h2 h3
    cases h1
    cases h3
    simp only [process_file, h2]
  · intro e h1
    cases h1
    simp only [process_file]

/-- C1 witness: the fallback branch taken on the single invalid byte 255. -/
theorem content_writer_read_policy_witness :
    utf8Read [255] = none
  ∧ process_file ["r"] ["r", "a.py"] ⟨.ok [255], .ok [255]⟩
      = "### 文件：" ++ relpathStr ["r"] ["r", "a.py"] ++ "\n\n"
        ++ ("```" ++ get_language_from_extension (pathStr ["r", "a.py"]) ++ "\n")
        ++ (latin1Read [255] ++ "\n```\n\n") :=
  ⟨rfl,
   (content_writer_read_policy ["r"] ["r", "a.py"] ⟨.ok [255], .ok [255]⟩).2.1
     [255] [255] rfl rfl rfl⟩

/-- C1 counterexample: "any byte sequence is fully represented in the
output" fails.  For file bytes [255, 13] — invalid UTF-8, so the latin-1
fallback is taken — the emitted section carries the text "ÿ\n", not the
full latin-1 representation "ÿ\r": text mode translates the
carriage-return byte 13, so the section the claim requires is not the one
produced. -/
theorem content_writer_full_repr_cex :
    process_file ["r"] ["r", "f.txt"] ⟨.ok [255, 13], .ok [255, 13]⟩
      = "### 文件：f.txt\n\n" ++ ("```" ++ "\n") ++ ("ÿ\n" ++ "\n```\n\n")
  ∧ latin1RawStr [255, 13] = "ÿ\r"
  ∧ process_file ["r"] ["r", "f.txt"] ⟨.ok [255, 13], .ok [255, 13]⟩
      ≠ "### 文件：f.txt\n\n" ++ ("```" ++ "\n")
        ++ (latin1RawStr [255, 13] ++ "\n```\n\n") :=
  ⟨by decide, by decide, by decide⟩

/-- C3: the File Collector returns exactly the files of the subtree whose
name ends with one of the configured extensions, in the top-down order of
the underlying walk; and for every completion order the final document
carries exactly one section per collected file — each opening with the
heading of its correct relative path — and no section for any other file. -/
theorem collector_and_sections (directory : List String) (root : FSEntry)
    (extensions : List String) (schedule : List (List String × FileState))
    (hsched : schedule.Perm (get_code_files directory root extensions)) :
    (get_code_files directory root extensions).map (fun e => e.1)
      = (walkFilesAll directory root).filter
          (fun fp => endswithAny (fp.getLastD "") extensions)
  ∧ (schedule.map (fun e => process_file directory e.1 e.2)).Perm
      ((get_code_files directory root extensions).map
        (fun e => process_file directory e.1 e.2))
  ∧ (schedule.map (fun e => process_file directory e.1 e.2)).length
      = (get_code_files directory root extensions).length
  ∧ ∀ fp st, ∃ rest, process_file directory fp st
      = "### 文件：" ++ relpathStr directory fp ++ "\n\n" ++ rest := by
  refine ⟨get_code_files_filter directory root extensions, hsched.map _, ?_, ?_⟩
  · rw [List.length_map, hsched.length_eq]
  · intro fp st
    refine ⟨("```" ++ get_language_from_extension (pathStr fp) ++ "\n")
      ++ (bodyMid (relpathStr directory fp) st ++ "\n```\n\n"), ?_⟩
    rw [process_file_eq]
    apply String.ext
    simp [String.data_append, List.append_assoc]

/-- C3 witness: the identity schedule over the sample project is a
permutation of the collected files, and the collector equation holds
there. -/
theorem collector_and_sections_witness :
    ((get_code_files ["p"] sampleProject source_extensions).Perm
        (get_code_files ["p"] sampleProject source_extensions))
  ∧ (get_code_files ["p"] sampleProject source_extensions).map (fun e => e.1)
      = (walkFilesAll ["p"] sampleProject).filter
          (fun fp => endswithAny (fp.getLastD "") source_extensions) :=
  ⟨List.Perm.refl _,
   (collector_and_sections ["p"] sampleProject source_extensions _
      (List.Perm.refl _)).1⟩

/-- C5: two runs against an unchanged tree with an unchanged extension set
produce identical multisets of (relative-path, content, language-tag)
triples, whatever the two completion orders; the section text is fully
determined by a file's triple; and the document names produced by the two
runs differ only in the timestamp component. -/
theorem rerun_sections_stable (directory : List String) (root : FSEntry)
    (extensions : List String) (s1 s2 : List (List String × FileState))
    (h1 : s1.Perm (get_code_files directory root extensions))
    (h2 : s2.Perm (get_code_files directory root extensions)) :
    (s1.map (sectionTriple directory)).Perm (s2.map (sectionTriple directory))
  ∧ (∀ fp st, process_file directory fp st
        = renderTriple (sectionTriple directory (fp, st)))
  ∧ ∀ project_name t1 t2 : String,
      output_filename project_name t1 = project_name ++ "_" ++ t1 ++ ".md"
      ∧ output_filename project_name t2 = project_name ++ "_" ++ t2 ++ ".md" :=
  ⟨(h1.trans h2.symm).map _,
   fun fp st => process_file_renderTriple directory fp st,
   fun _ _ _ => ⟨rfl, rfl⟩⟩

/-- C5 witness: the identity and the reversed schedule over the sample
project are both permutations of the collected files, and the two runs'
triple multisets agree. -/
theorem rerun_sections_stable_witness :
    ((get_code_files ["p"] sampleProject source_extensions).Perm
        (get_code_files ["p"] sampleProject source_extensions))
  ∧ ((get_code_files ["p"] sampleProject source_extensions).reverse.Perm
        (get_code_files ["p"] sampleProject source_extensions))
  ∧ ((get_code_files ["p"] sampleProject source_extensions).map
        (sectionTriple ["p"])).Perm
      (((get_code_files ["p"] sampleProject source_extensions).reverse).map
        (sectionTriple ["p"])) :=
  ⟨List.Perm.refl _, List.reverse_perm _,
   (rerun_sections_stable ["p"] sampleProject source_extensions _ _
      (List.Perm.refl _) (List.reverse_perm _)).1⟩

/-- C2: for every directory, the rendered level lists the direct children
sorted case-insensitively with directories and files interleaved, each entry
on disk exactly once (the rendered listing is a permutation of the
children); every entry except the last gets the branch connector '├── ' and
the last the corner connector '└── '; and nested levels extend the prefix
with '│   ' under a non-last ancestor and four spaces under a last ancestor
— the `specChunk` shape of the render equation. -/
theorem tree_renderer_layout (path : List String) (nm pfx : String)
    (children : List FSEntry) :
    (sortCI children).Perm children
  ∧ List.Sorted (fun a b => ciLe a b = true) (sortCI children)
  ∧ (build_tree path (.dir nm true children) pfx).fst
      = strJoin ((tagLast (sortCI children)).map (specChunk path pfx)) := by
  refine ⟨sortCI_perm children, sortCI_sorted children, ?_⟩
  rw [build_tree_readable, renderEntries_fst]

/-- C7: a directory whose listing raises a permission error renders with no
children and logs exactly one warning naming its path; inside a readable
parent the warning appears among the parent's logged warnings, and the
parent's full layout equation still holds — every sibling is still
rendered, so the render completes instead of aborting. -/
theorem unreadable_dir_rendering (path : List String) (nm pfx dnm : String)
    (children dchildren : List FSEntry)
    (hmem : FSEntry.dir dnm false dchildren ∈ children) :
    (∀ p2 pfx2, build_tree p2 (.dir dnm false dchildren) pfx2
        = ("", ["无权限访问目录：" ++ pathStr p2]))
  ∧ ("无权限访问目录：" ++ pathStr (path ++ [dnm]))
      ∈ (build_tree path (.dir nm true children) pfx).snd
  ∧ (build_tree path (.dir nm true children) pfx).fst
      = strJoin ((tagLast (sortCI children)).map (specChunk path pfx)) := by
  refine ⟨fun p2 pfx2 => build_tree_unreadable p2 dnm dchildren pfx2, ?_, ?_⟩
  · rw [build_tree_readable, renderEntries_snd]
    have hmem2 : FSEntry.dir dnm false dchildren ∈ sortCI children :=
      ((sortCI_perm children).mem_iff).mpr hmem
    obtain ⟨b, hb⟩ := mem_tagLast hmem2
    apply List.mem_flatten.mpr
    refine ⟨specWarn path pfx (FSEntry.dir dnm false dchildren, b),
      List.mem_map_of_mem _ hb, ?_⟩
    simp [specWarn, FSEntry.isDir, FSEntry.name, build_tree_unreadable]
  · rw [build_tree_readable, renderEntries_fst]

/-- C7 witness: a parent with one unreadable subdirectory and one file; the
membership hypothesis holds and the warning for the locked directory is
among the parent's warnings. -/
theorem unreadable_dir_rendering_witness :
    (FSEntry.dir "locked" false []
        ∈ [FSEntry.dir "locked" false [],
           FSEntry.file "a.py" ⟨.ok [97], .ok [97]⟩])
  ∧ ("无权限访问目录：" ++ pathStr (["p"] ++ ["locked"]))
      ∈ (build_tree ["p"]
          (.dir "p" true
            [FSEntry.dir "locked" false [],
             FSEntry.file "a.py" ⟨.ok [97], .ok [97]⟩]) "").snd :=
  ⟨List.mem_cons_self _ _,
   (unreadable_dir_rendering ["p"] "p" "" "locked"
      [FSEntry.dir "locked" false [], FSEntry.file "a.py" ⟨.ok [97], .ok [97]⟩]
      [] (List.mem_cons_self _ _)).2.1⟩

/-! ### Archiver helper lemmas -/

theorem digit_not_strip_char {c : Char} (h : c.isDigit = true) :
    (['.', 'm', 'd'].contains c) = false := by
  by_contra hc
  rw [Bool.not_eq_false] at hc
  have hmem : c ∈ ['.', 'm', 'd'] := by simpa using hc
  fin_cases hmem <;> exact absurd h (by decide)

theorem pyRstrip_md_of_digit (u : String) (c : Char) (hc : c.isDigit = true)
    (hlast : ∃ u0, u.data = u0 ++ [c]) :
    pyRstrip (u ++ ".md") ['.', 'm', 'd'] = u := by
  obtain ⟨u0, hu⟩ := hlast
  apply String.ext
  show ((u ++ ".md").data.reverse.dropWhile _).reverse = u.data
  rw [String.data_append, hu]
  simp +decide [List.reverse_append, List.dropWhile_cons, digit_not_strip_char hc]
  intro h
  exfalso
  rcases h with rfl | rfl | rfl <;> exact absurd hc (by decide)

theorem takeWhile_neq_slash : ∀ (l1 l2 : List Char), (∀ x ∈ l1, x ≠ '/') →
    List.takeWhile (fun ch => ch != '/') (l1 ++ '/' :: l2) = l1 := by
  intro l1
  induction l1 with
  | nil => intro l2 _; simp [List.takeWhile_cons]
  | cons x xs ih =>
    intro l2 h
    rw [List.cons_append, List.takeWhile_cons]
    have hx : (x != '/') = true := by
      simpa [bne_iff_ne] using h x (List.mem_cons_self x xs)
    rw [hx]
    simp only [if_true]
    rw [ih l2 (fun y hy => h y (List.mem_cons_of_mem x hy))]

theorem basenameStr_after_slash (dir0 base : String)
    (hb : ∀ ch ∈ base.data, ch ≠ '/') :
    basenameStr (dir0 ++ "/" ++ base) = base := by
  apply String.ext
  show ((dir0 ++ "/" ++ base).data.reverse.takeWhile _).reverse = base.data
  rw [String.data_append, String.data_append]
  have hrev : (dir0.data ++ "/".data ++ base.data).reverse
      = base.data.reverse ++ '/' :: dir0.data.reverse := by
    simp [List.reverse_append]
  rw [hrev, takeWhile_neq_slash base.data.reverse dir0.data.reverse
    (fun x hx => hb x (List.mem_reverse.mp hx))]
  simp

/-- C4: for a finished output document — named with the source's
`{project}_{YYYYMMDD_HHMM}.md` scheme, so its stem ends in a minute digit —
archiving produces the zip at the sibling path with the same stem plus
'.zip', holding exactly one entry stored under the document's base name,
and the entry's decompressed content is exactly the document's bytes. -/
theorem archiver_sibling_zip (folder project_name current_time : String)
    (docBytes : List Nat)
    (hform : ∃ t0 c, current_time.data = t0 ++ [c] ∧ c.isDigit = true)
    (hs1 : ∀ ch ∈ project_name.data, ch ≠ '/')
    (hs2 : ∀ ch ∈ current_time.data, ch ≠ '/') :
    (compress_backup (folder ++ "/" ++ output_filename project_name current_time)
        docBytes).fst
      = folder ++ "/" ++ (project_name ++ "_" ++ current_time) ++ ".zip"
  ∧ (compress_backup (folder ++ "/" ++ output_filename project_name current_time)
        docBytes).snd
      = [(output_filename project_name current_time, docBytes)] := by
  obtain ⟨t0, c, ht, hcd⟩ := hform
  have hsplit : folder ++ "/" ++ output_filename project_name current_time
      = (folder ++ "/" ++ (project_name ++ "_" ++ current_time)) ++ ".md" := by
    apply String.ext
    simp [output_filename, String.data_append, List.append_assoc]
  constructor
  · simp only [compress_backup]
    rw [hsplit, pyRstrip_md_of_digit _ c hcd
      ⟨folder.data ++ "/".data ++ project_name.data ++ "_".data ++ t0, by
        simp [String.data_append, ht, List.append_assoc]⟩]
  · simp only [compress_backup]
    have hbase : ∀ ch ∈ (output_filename project_name current_time).data, ch ≠ '/' := by
      intro ch hch
      simp only [output_filename, String.data_append] at hch
      rcases List.mem_append.mp hch with hch | hch
      · rcases List.mem_append.mp hch with hch | hch
        · rcases List.mem_append.mp hch with hch | hch
          · exact hs1 ch hch
          · intro he; subst he; revert hch; decide
        · exact hs2 ch hch
      · intro he; subst he; revert hch; decide
    have : basenameStr (folder ++ "/" ++ output_filename project_name current_time)
        = output_filename project_name current_time :=
      basenameStr_after_slash folder (output_filename project_name current_time) hbase
    rw [this]

/-- C4 witness: a concrete timestamped document name satisfying the naming
scheme, with the zip produced at the sibling path. -/
theorem archiver_sibling_zip_witness :
    (∃ t0 c, ("20250102_0930" : String).data = t0 ++ [c] ∧ c.isDigit = true)
  ∧ (compress_backup ("/tmp/backup" ++ "/" ++ output_filename "proj" "20250102_0930")
        [1, 2, 3]).fst
      = "/tmp/backup" ++ "/" ++ ("proj" ++ "_" ++ "20250102_0930") ++ ".zip" :=
  ⟨⟨"20250102_093".data, '0', rfl, rfl⟩,
   (archiver_sibling_zip "/tmp/backup" "proj" "20250102_0930" [1, 2, 3]
      ⟨"20250102_093".data, '0', rfl, rfl⟩ (by decide) (by decide)).1⟩

end BackupTool
